import Mathlib

/-!
Verification development for the batch PDF classifier
(`pdf_classifier.py`).  The Python source is shallowly embedded:
pure string manipulation becomes Lean functions over `List Char`,
the JSON layer becomes an executable recursive-descent parser over a
small JSON value type, fallible code returns `Option`/`Except`, and
the filesystem effects of the organizer become an explicit list of
copy operations.  Modelling notes:

* Python `str.lower`/`str.capitalize` are modelled for the ASCII
  range (non-ASCII letters are left unchanged); all inputs appearing
  in the claims are covered by this range or are unaffected by it.
* Python `\s` / `str.strip` whitespace is modelled by
  `Char.isWhitespace`.
* `json.loads` is modelled by an executable parser supporting null,
  booleans, integers, escape-free strings, arrays and objects; like
  the real parser it rejects the empty string, any text with a
  leading backquote character, and any trailing garbage.
-/

/-- Backquote character (used by the markdown code fences). -/
def btick : Char := Char.ofNat 96

/-- `\x7bjson` fence prefix removed by `classify_batch_with_ai`
(`json_text[7:]` after `startswith`), line 300 of the source. -/
def fenceJson : List Char := "```json".toList

/-- Three-backquote fence marker checked by `endswith`, line 302. -/
def fence3 : List Char := "```".toList

/-- Python `str.strip`-style predicate. -/
def ws (c : Char) : Bool := c.isWhitespace

/-- Python `str.strip` on a character list. -/
def stripL (l : List Char) : List Char :=
  (((l.dropWhile ws).reverse.dropWhile ws)).reverse

/-- ASCII lower/upper case table (Python `str.lower`/`capitalize`
restricted to ASCII, see modelling notes). -/
def caseTable : List (Char × Char) :=
  [('a', 'A'), ('b', 'B'), ('c', 'C'), ('d', 'D'), ('e', 'E'),
   ('f', 'F'), ('g', 'G'), ('h', 'H'), ('i', 'I'), ('j', 'J'),
   ('k', 'K'), ('l', 'L'), ('m', 'M'), ('n', 'N'), ('o', 'O'),
   ('p', 'P'), ('q', 'Q'), ('r', 'R'), ('s', 'S'), ('t', 'T'),
   ('u', 'U'), ('v', 'V'), ('w', 'W'), ('x', 'X'), ('y', 'Y'),
   ('z', 'Z')]

/-- Uppercase one character (ASCII). -/
def upChar (c : Char) : Char :=
  ((caseTable.find? (fun p => p.1 = c)).map Prod.snd).getD c

/-- Lowercase one character (ASCII). -/
def lowChar (c : Char) : Char :=
  ((caseTable.find? (fun p => p.2 = c)).map Prod.fst).getD c

/-- Python `str.lower` restricted to single-character ASCII mappings.
Used only for the placeholder comparisons (line 95/593) and the
`.pdf` suffix test (line 430), whose right-hand sides are ASCII
strings no length-expanding Unicode mapping can produce. -/
def asciiLower (s : String) : String := String.mk (s.toList.map lowChar)

/-- Python `str.lower` of one character as a character list,
including the one length-expanding lowercase special casing:
U+0130 lowercases to U+0069 followed by combining U+0307. -/
def lowCharL (c : Char) : List Char :=
  if c = 'İ' then ['i', Char.ofNat 775] else [lowChar c]

/-- Python titlecasing of one character as a character list (the
first character of `str.capitalize`), including the expanding
special casing of the sharp s to `"Ss"`. -/
def titleCharL (c : Char) : List Char :=
  if c = 'ß' then ['S', 's'] else [upChar c]

/-- The characters removed by `re.sub(r'[<>:"/\\|?*]', '', name)`
in `_sanitize_folder_name` (line 99). -/
def illegalChars : List Char := "<>:\"/\\|?*".toList

/-- One step of collapsing whitespace runs; the flag records whether
the previous character was whitespace (`re.sub(r'\s+', '_', ...)`,
line 100 of the source). -/
def collapseAux : Bool → List Char → List Char
  | _, [] => []
  | prevWs, c :: cs =>
    if ws c then
      (if prevWs then collapseAux true cs else '_' :: collapseAux true cs)
    else c :: collapseAux false cs

/-- `re.sub(r'\s+', '_', l)`: each maximal whitespace run becomes one
underscore. -/
def collapseWs (l : List Char) : List Char := collapseAux false l

/-- Python `s.split('_')` on a character list. -/
def splitUnd : List Char → List (List Char)
  | [] => [[]]
  | c :: cs =>
    match splitUnd cs with
    | [] => [[c]]
    | w :: wrest =>
      if c = '_' then [] :: w :: wrest else (c :: w) :: wrest

/-- Python `'_'.join(words)` on character lists. -/
def joinU : List (List Char) → List Char
  | [] => []
  | [w] => w
  | w :: wrest => w ++ '_' :: joinU wrest

/-- Python `str.capitalize`: first character titlecased, the rest
lowercased, both with the length-expanding Unicode special casings
of `titleCharL`/`lowCharL`. -/
def capWord : List Char → List Char
  | [] => []
  | c :: cs => titleCharL c ++ cs.flatMap lowCharL

/-- Placeholder names recognized by `_sanitize_folder_name`
(line 95 of the source). -/
def sanitizePlaceholders : List String := ["n/a", "na", "none", "null"]

/-- Lines 98-106 of the source for non-placeholder input: drop
illegal filesystem characters, strip, collapse whitespace runs to
underscores, truncate to 50 characters, capitalize each
underscore-delimited word (dropping empty ones) and rejoin. -/
def sanitizeCore (name : String) : List Char :=
  joinU (((splitUnd ((collapseWs (stripL (name.toList.filter
    (fun c => ¬ c ∈ illegalChars)))).take 50)).filter
      (fun w => ¬ w = [])).map capWord)

/-- `_sanitize_folder_name` (lines 85-108 of `pdf_classifier.py`):
`sanitizeCore`, falling back to `"Sin_Clasificar"` for empty or
placeholder input (line 95) and for an empty cleaned name
(line 108). -/
def sanitize_folder_name (name : String) : String :=
  if name = "" ∨ asciiLower name ∈ sanitizePlaceholders then "Sin_Clasificar"
  else if sanitizeCore name = [] then "Sin_Clasificar"
  else String.mk (sanitizeCore name)

/-- The spec's folder-segment pattern `[A-Za-z_]` with length between
1 and 50 (`Char.isAlpha` is the ASCII letter test). -/
def matchesFolderPattern (s : String) : Bool :=
  decide (1 ≤ s.length) && decide (s.length ≤ 50) &&
    s.toList.all (fun c => c.isAlpha || c = '_')

/-- Every underscore-delimited word of the string is a fixed point of
`capWord`, i.e. the string is title-cased word by word. -/
def isTitleCased (s : String) : Bool :=
  (splitUnd s.toList).all (fun w => decide (capWord w = w))

/-- Forty-nine `a`s followed by U+0130: the truncation to 50
characters happens before capitalization, whose lowercasing expands
U+0130 to two characters. -/
def c9cex : String := String.mk (List.replicate 49 'a' ++ ['İ'])

/-! ## JSON model (`json.loads`) -/

/-- JSON values produced by the response parser. -/
inductive Json where
  | null : Json
  | bool (b : Bool) : Json
  | num (n : Int) : Json
  | str (s : String) : Json
  | arr (elems : List Json) : Json
  | obj (fields : List (String × Json)) : Json

/-- Skip leading whitespace. -/
def skipWs (l : List Char) : List Char := l.dropWhile ws

/-- Digits to a natural number. -/
def digitsToNat (l : List Char) : Nat :=
  l.foldl (fun a c => a * 10 + (c.toNat - 48)) 0

/-- Parse a comma-separated list of values terminated by `]`;
`pv` parses one value, the `Nat` argument is fuel. -/
def parseItems (pv : List Char → Option (Json × List Char)) :
    Nat → List Char → Option (List Json × List Char)
  | 0, _ => none
  | f + 1, l =>
    match pv l with
    | none => none
    | some (v, r) =>
      match skipWs r with
      | ',' :: r2 =>
        match parseItems pv f r2 with
        | some (vs, r3) => some (v :: vs, r3)
        | none => none
      | ']' :: r2 => some ([v], r2)
      | _ => none

/-- Parse a comma-separated list of `"key": value` pairs terminated
by a closing brace; `pv` parses one value, the `Nat` argument is
fuel. -/
def parseFields (pv : List Char → Option (Json × List Char)) :
    Nat → List Char → Option (List (String × Json) × List Char)
  | 0, _ => none
  | f + 1, l =>
    match skipWs l with
    | '"' :: cs =>
      match cs.dropWhile (fun d => ¬ d = '"') with
      | '"' :: r1 =>
        match skipWs r1 with
        | ':' :: r2 =>
          match pv r2 with
          | some (v, r3) =>
            match skipWs r3 with
            | ',' :: r4 =>
              match parseFields pv f r4 with
              | some (fs, r5) =>
                some ((String.mk (cs.takeWhile (fun d => ¬ d = '"')), v) :: fs, r5)
              | none => none
            | '}' :: r4 =>
              some ([(String.mk (cs.takeWhile (fun d => ¬ d = '"')), v)], r4)
            | _ => none
          | none => none
        | _ => none
      | _ => none
    | _ => none

/-- One level of the value parser; `pv` handles nested values. -/
def parseStep (pv : List Char → Option (Json × List Char))
    (l : List Char) : Option (Json × List Char) :=
  match skipWs l with
  | [] => none
  | c :: cs =>
    if c = 'n' then
      (if cs.take 3 = ['u', 'l', 'l'] then some (.null, cs.drop 3) else none)
    else if c = 't' then
      (if cs.take 3 = ['r', 'u', 'e'] then some (.bool true, cs.drop 3) else none)
    else if c = 'f' then
      (if cs.take 4 = ['a', 'l', 's', 'e'] then some (.bool false, cs.drop 4) else none)
    else if c = '"' then
      (match cs.dropWhile (fun d => ¬ d = '"') with
       | '"' :: r => some (.str (String.mk (cs.takeWhile (fun d => ¬ d = '"'))), r)
       | _ => none)
    else if c = '-' then
      (match cs with
       | d :: _ =>
         if d.isDigit then
           some (.num (-(digitsToNat (cs.takeWhile Char.isDigit) : Int)),
             cs.dropWhile Char.isDigit)
         else none
       | [] => none)
    else if c.isDigit then
      some (.num (digitsToNat ((c :: cs).takeWhile Char.isDigit) : Int),
        (c :: cs).dropWhile Char.isDigit)
    else if c = '[' then
      (match skipWs cs with
       | ']' :: r => some (.arr [], r)
       | _ =>
         match parseItems pv (cs.length + 1) cs with
         | some (vs, r) => some (.arr vs, r)
         | none => none)
    else if c = '{' then
      (match skipWs cs with
       | '}' :: r => some (.obj [], r)
       | _ =>
         match parseFields pv (cs.length + 1) cs with
         | some (fs, r) => some (.obj fs, r)
         | none => none)
    else none

/-- Fueled value parser (fuel bounds nesting depth). -/
def parseV (n : Nat) : List Char → Option (Json × List Char) :=
  Nat.rec (motive := fun _ => List Char → Option (Json × List Char))
    (fun _ => none) (fun _ ih => parseStep ih) n

/-- `json.loads` model: parse one value and require that only
whitespace remains. -/
def parseJson (l : List Char) : Option Json :=
  match parseV (l.length + 1) l with
  | some (v, r) => if skipWs r = [] then some v else none
  | none => none

/-! ## Response decoding (`classify_batch_with_ai`, lines 298-348) -/

/-- Python `endswith("\x60\x60\x60")`. -/
def endsFence (l : List Char) : Bool := decide (l.reverse.take 3 = fence3)

/-- Python `json_text[:-3]` (only applied when `endsFence` holds). -/
def dropRight3 (l : List Char) : List Char := (l.reverse.drop 3).reverse

/-- Lines 299-304 of the source: strip, drop a leading
`\x60\x60\x60json`, drop a trailing `\x60\x60\x60`, strip again. -/
def stripPipeline (l : List Char) : List Char :=
  let l1 := stripL l
  let l2 := if l1.take 7 = fenceJson then l1.drop 7 else l1
  let l3 := if endsFence l2 then dropRight3 l2 else l2
  stripL l3

/-- Decode an AI response: parse the stripped text and require a JSON
array (line 307 `json.loads` plus the line 310 `isinstance` check);
any other outcome is the `None` failure value. -/
def decodeL (l : List Char) : Option (List Json) :=
  match parseJson (stripPipeline l) with
  | some (.arr xs) => some xs
  | _ => none

/-- String-level wrapper of `decodeL`. -/
def decodeResp (s : String) : Option (List Json) := decodeL s.toList

/-- `classify_batch_with_ai` (lines 242-348): given the batch's
(text, filename) pairs and the raw response text, return the decoded
classifications (`none` on any malformed response — the Python
handlers turn both `json.JSONDecodeError` and the non-list
`ValueError` into a `return None`) together with the diagnostic log
entries; the raw response text is logged in every path that reaches
the API (line 296, and again at lines 329/344 on failure). -/
def classify_batch_with_ai (texts_and_files : List (String × String))
    (resp : String) : Option (List Json) × List String :=
  if texts_and_files = [] then (some [], [])
  else
    match decodeResp resp with
    | some xs => (some xs, [resp])
    | none => (none, [resp, resp])

/-! ## Batch processing (`process_batch`, lines 350-406) -/

/-- Python dict assignment `d[k] = v`: replace an existing key in
place, otherwise append. -/
def setKey : List (String × Json) → String → Json → List (String × Json)
  | [], k, v => [(k, v)]
  | (k', v') :: rest, k, v =>
    if k' = k then (k, v) :: rest else (k', v') :: setKey rest k v

/-- Lines 390-404: zip filenames against classifications positionally;
`classifications[i].copy()` followed by the two key assignments raises
for a non-object element (no `.copy`/string indexing), which the
caller's `except` turns into a whole-batch error. -/
def buildResults (ts : String) :
    List String → List Json → Except Unit (List Json)
  | [], _ => .ok []
  | _ :: _, [] => .ok []
  | fn :: fns, c :: cls =>
    match c with
    | .obj fields =>
      (match buildResults ts fns cls with
       | .ok rest =>
         .ok (.obj (setKey (setKey fields "archivo" (.str fn)) "timestamp"
           (.str ts)) :: rest)
       | .error e => .error e)
    | _ => .error ()

/-- The text-length filter of lines 366-375: keep a file when
extraction succeeded and `len(texto.strip()) > 50`. -/
def effectiveBatch (extract : String → Option String)
    (batch : List String) : List (String × String) :=
  batch.filterMap (fun f =>
    match extract f with
    | some t => if 50 < (stripL t.toList).length then some (t, f) else none
    | none => none)

/-- `process_batch` (lines 350-406).  `extract` models
`extract_text_from_pdf`, `ai` models the generative model (response
text per submitted batch), `ts` the record timestamp.  Returns the
batch's records (`Except.error` when the reconciliation loop raises)
paired with the list of AI submissions actually made. -/
def process_batch (extract : String → Option String)
    (ai : List (String × String) → String) (ts : String)
    (batch : List String) :
    Except Unit (List Json) × List (List (String × String)) :=
  let taf := effectiveBatch extract batch
  if taf = [] then (.ok [], [])
  else
    match (classify_batch_with_ai taf (ai taf)).1 with
    | none => (.ok [], [taf])
    | some [] => (.ok [], [taf])
    | some cls => (buildResults ts (taf.map Prod.snd) cls, [taf])

/-! ## Folder pipeline (`classify_pdfs_in_folder`, lines 408-506) -/

/-- `f.suffix.lower() == '.pdf'` (line 430): the name's last four
characters are `.pdf` up to ASCII case, and the dot is not the
leading character of the name. -/
def isPdfName (f : String) : Bool :=
  decide (4 < f.length) && decide ((asciiLower f).toList.reverse.take 4 = ".pdf".toList.reverse)

/-- Batch slicing `pdf_files[i:i + self.batch_size]` (line 455),
with fuel for structural termination. -/
def chunkAux : Nat → Nat → List α → List (List α)
  | 0, _, _ => []
  | _ + 1, _, [] => []
  | f + 1, bs, c :: cs => (c :: cs).take bs :: chunkAux f bs ((c :: cs).drop bs)

/-- The batches formed by the loop at line 454. -/
def chunkList (bs : Nat) (l : List α) : List (List α) := chunkAux l.length bs l

/-- Accumulated state of the batch loop (lines 450-469). -/
structure BatchAcc where
  results : List Json
  processed : Nat
  errors : Nat
  calls : List (List (String × String))

/-- The batch loop: successful batches extend `all_results` and
`processed_count`; a raising batch adds its full size to
`error_count` (line 469). -/
def runBatches (pb : List String → Except Unit (List Json) × List (List (String × String))) :
    List (List String) → BatchAcc
  | [] => ⟨[], 0, 0, []⟩
  | b :: bs =>
    let rest := runBatches pb bs
    match pb b with
    | (.ok rs, calls) =>
      ⟨rs ++ rest.results, rs.length + rest.processed, rest.errors,
        calls ++ rest.calls⟩
    | (.error _, calls) =>
      ⟨rest.results, rest.processed, b.length + rest.errors,
        calls ++ rest.calls⟩

/-- The statistics dictionary returned by `classify_pdfs_in_folder`;
`success_rate = none` models the absence of the key (the early
return at line 434 builds the dictionary without it). -/
structure RunStats where
  total_files : Nat
  processed : Nat
  errors : Nat
  success_rate : Option ℚ

/-- Full observable outcome of a folder run: the statistics, the
persisted result file content (`none` when `_save_results` writes
nothing, line 510-512), and the batches submitted to the AI stage. -/
structure RunOutput where
  stats : RunStats
  persisted : Option (List Json)
  aiBatches : List (List (String × String))

/-- `classify_pdfs_in_folder` (lines 408-506) over a folder listing
`entries`. -/
def classify_pdfs_in_folder (entries : List String)
    (extract : String → Option String)
    (ai : List (String × String) → String) (bs : Nat) (ts : String) :
    RunOutput :=
  let pdf_files := entries.filter isPdfName
  if pdf_files = [] then ⟨⟨0, 0, 0, none⟩, none, []⟩
  else
    let acc := runBatches (process_batch extract ai ts) (chunkList bs pdf_files)
    { stats :=
        { total_files := pdf_files.length
          processed := acc.processed
          errors := acc.errors
          success_rate :=
            some ((acc.processed : ℚ) / (pdf_files.length : ℚ) * 100) }
      persisted :=
        match acc.results with
        | [] => none
        | r :: rs => some (r :: rs)
      aiBatches := acc.calls }

/-! ## Organizer (`organize_files_by_classification`, lines 542-646) -/

/-- A classification record as consumed by the organizer
(`result.get` with default `''` for each field). -/
structure CRec where
  archivo : String
  tema_general : String
  subtema : String
deriving DecidableEq

/-- Placeholder themes routed to `no_clasificados` by line 593 of the
source — note this list has no `"null"` entry, unlike
`_sanitize_folder_name`. -/
def organizerPlaceholders : List String := ["n/a", "na", "none"]

/-- Per-record routing decision of the organizer loop
(lines 573-620). -/
inductive RecOutcome where
  | err : RecOutcome
  | unclassified : RecOutcome
  | themed (dest : List String) : RecOutcome
deriving DecidableEq

/-- Lines 575-616: missing filename or missing source file is an
error; empty/placeholder general theme goes to the unclassified
bucket; otherwise the sanitized theme (and non-placeholder sanitized
subtheme) name the destination folder. -/
def recOutcome (src : List String) (r : CRec) : RecOutcome :=
  if r.archivo = "" then .err
  else if ¬ r.archivo ∈ src then .err
  else if r.tema_general = "" ∨ asciiLower r.tema_general ∈ organizerPlaceholders then
    .unclassified
  else
    if r.subtema ≠ "" ∧ sanitize_folder_name r.subtema ≠ "Sin_Clasificar" then
      .themed [sanitize_folder_name r.tema_general, sanitize_folder_name r.subtema]
    else .themed [sanitize_folder_name r.tema_general]

/-- The copy operation (destination path segments below the organized
root, copied file name) performed for one record, if any. -/
def recCopy (src : List String) (r : CRec) : List (List String × String) :=
  match recOutcome src r with
  | .err => []
  | .unclassified => [(["no_clasificados"], r.archivo)]
  | .themed d => [(d, r.archivo)]

/-- `source_folder.glob("*.pdf")` (line 624): case-sensitive
extension match. -/
def globPdf (f : String) : Bool :=
  decide (f.toList.reverse.take 4 = ".pdf".toList.reverse)

/-- Statistics dictionary of the organizer (lines 562-568, with
`folders_created` reported as a count, line 638). -/
structure OrgStats where
  total_processed : Nat
  successfully_organized : Nat
  moved_to_unclassified : Nat
  errors : Nat
  folders_created : Nat

/-- Observable outcome of the organizer: the copy operations
performed (in order) and the returned statistics. -/
structure OrgOut where
  copies : List (List String × String)
  stats : OrgStats

/-- Is a routing decision a themed destination? -/
def isThemed : RecOutcome → Bool
  | .themed _ => true
  | _ => false

/-- The distinct themed destination paths of a record list
(`folders_created` set). -/
def themedDests (src : List String) (results : List CRec) : List (List String) :=
  (results.filterMap (fun r =>
    match recOutcome src r with
    | .themed d => some d
    | _ => none)).dedup

/-- `organize_files_by_classification` (lines 542-646): the record
loop routes each record, then the reconciliation pass (lines 622-635)
copies every globbed PDF whose name never appeared among the records
into `no_clasificados`.  Copies are modelled as always succeeding. -/
def organize_files_by_classification (results : List CRec)
    (src : List String) : OrgOut :=
  let pass1 := (results.map (recCopy src)).flatten
  let leftovers := src.filter (fun f =>
    globPdf f && ¬ results.any (fun r => r.archivo = f))
  { copies := pass1 ++ leftovers.map (fun f => (["no_clasificados"], f))
    stats :=
      { total_processed := results.length
        successfully_organized :=
          (results.filter (fun r => isThemed (recOutcome src r))).length
        moved_to_unclassified :=
          (results.filter (fun r => recOutcome src r = .unclassified)).length
            + leftovers.length
        errors := (results.filter (fun r => recOutcome src r = .err)).length
        folders_created := (themedDests src results).length } }

/-- Destination paths that receive a given file. -/
def destPathsOf (out : OrgOut) (f : String) : List (List String) :=
  (out.copies.filter (fun c => c.2 = f)).map Prod.fst

/-! ## Concrete scenario used by the end-to-end claims -/

/-- Seven-file folder of the end-to-end scenario. -/
def exFiles : List String :=
  ["a1.pdf", "a2.pdf", "a3.pdf", "a4.pdf", "a5.pdf", "a6.pdf", "a7.pdf"]

/-- Extraction oracle: every file yields 60 characters of text. -/
def exExtract : String → Option String :=
  fun _ => some (String.mk (List.replicate 60 'x'))

/-- Well-formed response for the first batch (three records). -/
def resp1 : String :=
  "[\x7b\"tema_general\": \"Historia\"\x7d, \x7b\"tema_general\": \"Ciencias\"\x7d, \x7b\"tema_general\": \"Arte\"\x7d]"

/-- Well-formed response for the third batch (one record). -/
def resp3 : String := "[\x7b\"tema_general\": \"Musica\"\x7d]"

/-- AI oracle: the batch containing `a4.pdf` (batch 2) answers with
malformed text; the other batches answer well-formed arrays. -/
def exAI : List (String × String) → String := fun taf =>
  if taf.any (fun p => p.2 = "a4.pdf") then "this is not json"
  else if taf.length = 3 then resp1 else resp3

/-- The end-to-end run of the scenario: 7 PDFs, batch size 3,
batch 2 malformed. -/
def exRun : RunOutput := classify_pdfs_in_folder exFiles exExtract exAI 3 "T"

/-! ## Lemmas about batch slicing -/

theorem chunkAux_nil (f bs : Nat) : chunkAux f bs ([] : List α) = [] := by
  cases f <;> rfl

theorem chunkAux_flatten (bs : Nat) (hbs : 1 ≤ bs) :
    ∀ (f : Nat) (l : List α), l.length ≤ f → (chunkAux f bs l).flatten = l := by
  intro f
  induction f with
  | zero =>
    intro l hl
    have : l = [] := List.length_eq_zero.mp (Nat.le_zero.mp hl)
    simp [this, chunkAux]
  | succ f ih =>
    intro l hl
    cases l with
    | nil => simp [chunkAux]
    | cons c cs =>
      have hlen : ((c :: cs).drop bs).length ≤ f := by
        simp only [List.length_drop, List.length_cons] at *
        omega
      simp [chunkAux, ih _ hlen]

theorem chunkAux_length_le (bs : Nat) :
    ∀ (f : Nat) (l : List α) (b : List α), b ∈ chunkAux f bs l → b.length ≤ bs := by
  intro f
  induction f with
  | zero => intro l b hb; simp [chunkAux] at hb
  | succ f ih =>
    intro l b hb
    cases l with
    | nil => simp [chunkAux] at hb
    | cons c cs =>
      simp only [chunkAux, List.mem_cons] at hb
      rcases hb with hb | hb
      · subst hb
        simpa using Nat.min_le_left bs (c :: cs).length
      · exact ih _ _ hb

theorem chunkAux_dropLast_length (bs : Nat) (hbs : 1 ≤ bs) :
    ∀ (f : Nat) (l : List α) (b : List α),
      b ∈ (chunkAux f bs l).dropLast → b.length = bs := by
  intro f
  induction f with
  | zero => intro l b hb; simp [chunkAux] at hb
  | succ f ih =>
    intro l b hb
    cases l with
    | nil => simp [chunkAux] at hb
    | cons c cs =>
      simp only [chunkAux] at hb
      rcases hrest : chunkAux f bs ((c :: cs).drop bs) with _ | ⟨r, rs⟩
      · rw [hrest] at hb
        simp at hb
      · rw [hrest, List.dropLast_cons_of_ne_nil (by simp)] at hb
        rcases List.mem_cons.mp hb with hb | hb
        · subst hb
          have hdrop : (c :: cs).drop bs ≠ [] := by
            intro hnil
            rw [hnil, chunkAux_nil] at hrest
            exact List.noConfusion hrest
          have : bs < (c :: cs).length := by
            by_contra hle
            exact hdrop (List.drop_eq_nil_of_le (Nat.le_of_not_lt hle))
          simp only [List.length_cons] at this
          simp [List.length_take]
          omega
        · exact ih _ _ (by rw [hrest]; exact hb)

/-- C5.  The batches formed by `classify_pdfs_in_folder` are
contiguous order-preserving slices: concatenated in order they
reproduce the scanned list, none exceeds the batch size, and only the
final batch may be smaller. -/
theorem chunkList_partition (l : List String) (bs : Nat) (hbs : 1 ≤ bs) :
    (chunkList bs l).flatten = l ∧
    (∀ b ∈ chunkList bs l, b.length ≤ bs) ∧
    (∀ b ∈ (chunkList bs l).dropLast, b.length = bs) :=
  ⟨chunkAux_flatten bs hbs l.length l (Nat.le_refl _),
   fun b hb => chunkAux_length_le bs l.length l b hb,
   fun b hb => chunkAux_dropLast_length bs hbs l.length l b hb⟩

/-- Witness for C5 at the 7-file, batch-size-3 scenario. -/
theorem chunkList_partition_witness :
    (chunkList 3 exFiles).flatten = exFiles ∧
    (∀ b ∈ chunkList 3 exFiles, b.length ≤ 3) ∧
    (∀ b ∈ (chunkList 3 exFiles).dropLast, b.length = 3) :=
  chunkList_partition exFiles 3 (by decide)

/-! ## Lemmas about the batch loop statistics -/

theorem buildResults_length_le (ts : String) :
    ∀ (fns : List String) (cls : List Json) (rs : List Json),
      buildResults ts fns cls = .ok rs → rs.length ≤ fns.length := by
  intro fns
  induction fns with
  | nil =>
    intro cls rs h
    simp only [buildResults] at h
    cases h
    simp
  | cons fn fns ih =>
    intro cls rs h
    cases cls with
    | nil =>
      simp only [buildResults] at h
      cases h
      simp
    | cons c cls =>
      cases c with
      | obj fields =>
        simp only [buildResults] at h
        rcases hrest : buildResults ts fns cls with rest | rest
        · rw [hrest] at h
          cases h
        · rw [hrest] at h
          cases h
          have := ih cls rest hrest
          simp only [List.length_cons]
          omega
      | null => simp [buildResults] at h
      | bool b => simp [buildResults] at h
      | num n => simp [buildResults] at h
      | str s => simp [buildResults] at h
      | arr xs => simp [buildResults] at h

theorem process_batch_ok_length_le (extract : String → Option String)
    (ai : List (String × String) → String) (ts : String)
    (batch : List String) (rs : List Json)
    (calls : List (List (String × String)))
    (h : process_batch extract ai ts batch = (.ok rs, calls)) :
    rs.length ≤ batch.length := by
  have heff : (effectiveBatch extract batch).length ≤ batch.length :=
    List.length_filterMap_le _ _
  simp only [process_batch] at h
  split at h
  · cases h
    simp
  · rcases hdec : (classify_batch_with_ai (effectiveBatch extract batch)
        (ai (effectiveBatch extract batch))).1 with _ | cls
    · rw [hdec] at h
      replace h : (Except.ok (ε := Unit) ([] : List Json),
          [effectiveBatch extract batch]) = (Except.ok rs, calls) := h
      have : ([] : List Json) = rs := Except.ok.inj (congrArg Prod.fst h)
      simp [← this]
    · rw [hdec] at h
      cases cls with
      | nil =>
        replace h : (Except.ok (ε := Unit) ([] : List Json),
            [effectiveBatch extract batch]) = (Except.ok rs, calls) := h
        have : ([] : List Json) = rs := Except.ok.inj (congrArg Prod.fst h)
        simp [← this]
      | cons c cls =>
        replace h : (buildResults ts ((effectiveBatch extract batch).map Prod.snd)
            (c :: cls), [effectiveBatch extract batch]) = (Except.ok rs, calls) := h
        have hb : buildResults ts ((effectiveBatch extract batch).map Prod.snd)
            (c :: cls) = .ok rs := congrArg Prod.fst h
        have := buildResults_length_le ts _ _ _ hb
        simp only [List.length_map] at this
        omega

theorem runBatches_sum_le
    (pb : List String → Except Unit (List Json) × List (List (String × String)))
    (hpb : ∀ b rs calls, pb b = (.ok rs, calls) → rs.length ≤ b.length) :
    ∀ batches : List (List String),
      (runBatches pb batches).processed + (runBatches pb batches).errors ≤
        (batches.map List.length).sum := by
  intro batches
  induction batches with
  | nil => simp [runBatches]
  | cons b bs ih =>
    simp only [runBatches, List.map_cons, List.sum_cons]
    rcases hb : pb b with ⟨r | rs, calls⟩
    · simp only []
      omega
    · simp only []
      have := hpb b rs calls hb
      omega

/-- C3 counterexample: on an empty folder `classify_pdfs_in_folder`
returns a dictionary with no `success_rate` key at all (modelled as
`none`), not one equal to `0`. -/
theorem c3_empty_folder_no_success_rate :
    (classify_pdfs_in_folder [] exExtract exAI 3 "T").stats.success_rate ≠
      some 0 := by
  rw [show (classify_pdfs_in_folder [] exExtract exAI 3 "T").stats.success_rate =
    none from rfl]
  simp

/-- C3 (amended).  For every folder run with batch size ≥ 1:
`processed + errors ≤ total_files`; a folder with no PDF files yields
the zero-activity dictionary (which omits the `success_rate` key)
without any AI invocation; and on a folder with PDFs the returned
`success_rate` equals `processed / total_files * 100`, computed
without any division fault. -/
theorem classify_stats_bounds (entries : List String)
    (extract : String → Option String)
    (ai : List (String × String) → String) (bs : Nat) (ts : String)
    (hbs : 1 ≤ bs) :
    (classify_pdfs_in_folder entries extract ai bs ts).stats.processed +
      (classify_pdfs_in_folder entries extract ai bs ts).stats.errors ≤
      (classify_pdfs_in_folder entries extract ai bs ts).stats.total_files ∧
    (entries.filter isPdfName = [] →
      (classify_pdfs_in_folder entries extract ai bs ts).stats = ⟨0, 0, 0, none⟩ ∧
      (classify_pdfs_in_folder entries extract ai bs ts).aiBatches = []) ∧
    (entries.filter isPdfName ≠ [] →
      (classify_pdfs_in_folder entries extract ai bs ts).stats.success_rate =
        some (((classify_pdfs_in_folder entries extract ai bs ts).stats.processed : ℚ) /
          ((classify_pdfs_in_folder entries extract ai bs ts).stats.total_files : ℚ) * 100)) := by
  by_cases hpdf : entries.filter isPdfName = []
  · refine ⟨?_, fun _ => ⟨?_, ?_⟩, fun hne => absurd hpdf hne⟩
    · simp [classify_pdfs_in_folder, hpdf]
    · simp [classify_pdfs_in_folder, hpdf]
    · simp [classify_pdfs_in_folder, hpdf]
  · refine ⟨?_, fun hnil => absurd hnil hpdf, fun _ => ?_⟩
    · have hflat : (chunkList bs (entries.filter isPdfName)).flatten =
          entries.filter isPdfName :=
        chunkAux_flatten bs hbs _ _ (Nat.le_refl _)
      have hsum : ((chunkList bs (entries.filter isPdfName)).map List.length).sum =
          (entries.filter isPdfName).length := by
        rw [← List.length_flatten, hflat]
      have hrun := runBatches_sum_le (process_batch extract ai ts)
        (fun b rs calls h => process_batch_ok_length_le extract ai ts b rs calls h)
        (chunkList bs (entries.filter isPdfName))
      simp only [classify_pdfs_in_folder, if_neg hpdf]
      omega
    · simp only [classify_pdfs_in_folder, if_neg hpdf]

/-- Witness for C3 at the concrete seven-file scenario and at an
empty folder. -/
theorem classify_stats_bounds_witness :
    exRun.stats.processed + exRun.stats.errors ≤ exRun.stats.total_files ∧
    (classify_pdfs_in_folder ["x.txt"] exExtract exAI 3 "T").stats =
      ⟨0, 0, 0, none⟩ ∧
    exRun.stats.success_rate =
      some ((exRun.stats.processed : ℚ) / (exRun.stats.total_files : ℚ) * 100) :=
  ⟨(classify_stats_bounds exFiles exExtract exAI 3 "T" (by decide)).1,
   ((classify_stats_bounds ["x.txt"] exExtract exAI 3 "T" (by decide)).2.1
     (by decide)).1,
   (classify_stats_bounds exFiles exExtract exAI 3 "T" (by decide)).2.2
     (by decide)⟩

/-- C1 counterexample: in the 7-PDF, batch-size-3 run with batch 2
malformed, the final `errors` count is not 3.  `process_batch`
swallows the malformed response (`classify_batch_with_ai` returns the
failure value, the batch yields `[]` records) and `error_count` is
only incremented when `process_batch` raises, so it stays 0. -/
theorem c1_errors_not_counted : exRun.stats.errors ≠ 3 := by decide

/-- C1 (amended).  In the scenario of the claim the malformed batch
contributes zero records and zero error count: final statistics are
`total_files = 7`, `processed = 4`, `errors = 0`, and the persisted
result file holds exactly the four records of batches 1 and 3. -/
theorem c1_malformed_batch_stats :
    exRun.stats.total_files = 7 ∧ exRun.stats.processed = 4 ∧
    exRun.stats.errors = 0 ∧
    exRun.persisted = some
      [.obj [("tema_general", .str "Historia"), ("archivo", .str "a1.pdf"),
         ("timestamp", .str "T")],
       .obj [("tema_general", .str "Ciencias"), ("archivo", .str "a2.pdf"),
         ("timestamp", .str "T")],
       .obj [("tema_general", .str "Arte"), ("archivo", .str "a3.pdf"),
         ("timestamp", .str "T")],
       .obj [("tema_general", .str "Musica"), ("archivo", .str "a7.pdf"),
         ("timestamp", .str "T")]] :=
  ⟨rfl, rfl, rfl, rfl⟩

/-! ## Organizer routing theorems -/

/-- C4 counterexample: a record whose general theme is `"null"` is
NOT routed to `no_clasificados` — the organizer's placeholder list at
line 593 lacks `"null"`, so the file is copied into the themed folder
`Sin_Clasificar` (the sanitizer maps `"null"` there) and the
moved-to-unclassified count stays 0. -/
theorem c4_null_theme_not_unclassified :
    recOutcome ["b.pdf"] ⟨"b.pdf", "null", ""⟩ = .themed ["Sin_Clasificar"] ∧
    (organize_files_by_classification [⟨"b.pdf", "null", ""⟩]
      ["b.pdf"]).stats.moved_to_unclassified = 0 ∧
    (organize_files_by_classification [⟨"b.pdf", "null", ""⟩] ["b.pdf"]).copies =
      [(["Sin_Clasificar"], "b.pdf")] := by decide

theorem recOutcome_unclassified (src : List String) (r : CRec)
    (h0 : r.archivo ≠ "") (h1 : r.archivo ∈ src)
    (h2 : r.tema_general = "" ∨ asciiLower r.tema_general ∈ organizerPlaceholders) :
    recOutcome src r = .unclassified := by
  simp only [recOutcome, if_neg h0, if_neg (not_not_intro h1), if_pos h2]

/-- C4 (amended).  For a record whose general theme is empty or one
of the organizer's placeholders `"n/a"`, `"na"`, `"none"`
(case-insensitively — `"null"` is NOT in this list), the organizer
routes the record to the fixed `no_clasificados` folder, performs
that copy, and counts it in `moved_to_unclassified`; it never places
that record under a themed folder. -/
theorem placeholder_routes_to_unclassified (results : List CRec)
    (src : List String) (r : CRec) (hr : r ∈ results)
    (h0 : r.archivo ≠ "") (h1 : r.archivo ∈ src)
    (h2 : r.tema_general = "" ∨ asciiLower r.tema_general ∈ organizerPlaceholders) :
    recOutcome src r = .unclassified ∧
    (["no_clasificados"], r.archivo) ∈
      (organize_files_by_classification results src).copies ∧
    1 ≤ (organize_files_by_classification results src).stats.moved_to_unclassified := by
  have hout := recOutcome_unclassified src r h0 h1 h2
  refine ⟨hout, ?_, ?_⟩
  · simp only [organize_files_by_classification, List.mem_append]
    left
    rw [List.mem_flatten]
    refine ⟨recCopy src r, List.mem_map_of_mem (recCopy src) hr, ?_⟩
    simp [recCopy, hout]
  · simp only [organize_files_by_classification]
    have : r ∈ results.filter (fun r => recOutcome src r = .unclassified) := by
      rw [List.mem_filter]
      exact ⟨hr, by simp [hout]⟩
    have := List.length_pos.mpr (List.ne_nil_of_mem this)
    omega

/-- Witness for C4 at a concrete `"N/A"`-themed record. -/
theorem placeholder_routes_witness :
    recOutcome ["c.pdf"] ⟨"c.pdf", "N/A", ""⟩ = .unclassified ∧
    (["no_clasificados"], "c.pdf") ∈
      (organize_files_by_classification [⟨"c.pdf", "N/A", ""⟩] ["c.pdf"]).copies ∧
    1 ≤ (organize_files_by_classification [⟨"c.pdf", "N/A", ""⟩]
      ["c.pdf"]).stats.moved_to_unclassified := by
  have := placeholder_routes_to_unclassified [⟨"c.pdf", "N/A", ""⟩] ["c.pdf"]
    ⟨"c.pdf", "N/A", ""⟩ (by decide) (by decide) (by decide) (Or.inr (by decide))
  exact this

/-! ## Organizer coverage lemmas -/

theorem recCopy_snd (src : List String) (r : CRec) :
    ∀ c ∈ recCopy src r, c.2 = r.archivo := by
  intro c hc
  simp only [recCopy] at hc
  rcases h : recOutcome src r with _ | _ | d <;> rw [h] at hc <;> simp at hc <;>
    simp [hc]

theorem recOutcome_ne_err (src : List String) (r : CRec)
    (h0 : r.archivo ≠ "") (h1 : r.archivo ∈ src) :
    recOutcome src r ≠ .err := by
  simp only [recOutcome, if_neg h0, if_neg (not_not_intro h1)]
  split
  · simp
  · split <;> simp

theorem recCopy_length_one (src : List String) (r : CRec)
    (h0 : r.archivo ≠ "") (h1 : r.archivo ∈ src) :
    (recCopy src r).length = 1 := by
  have := recOutcome_ne_err src r h0 h1
  simp only [recCopy]
  rcases h : recOutcome src r with _ | _ | d
  · exact absurd h this
  · simp
  · simp

theorem pass1_count_zero (src : List String) (f : String) :
    ∀ results : List CRec, (∀ r ∈ results, r.archivo ≠ f) →
      (((results.map (recCopy src)).flatten).filter
        (fun c => c.2 = f)).length = 0 := by
  intro results
  induction results with
  | nil => intro _; simp
  | cons r rest ih =>
    intro hall
    simp only [List.map_cons, List.flatten_cons, List.filter_append,
      List.length_append]
    have hhead : ((recCopy src r).filter (fun c => c.2 = f)).length = 0 := by
      rw [List.length_eq_zero]
      rw [List.filter_eq_nil_iff]
      intro c hc
      have := recCopy_snd src r c hc
      simp only [this]
      simpa using hall r (List.mem_cons_self r rest)
    rw [hhead, ih (fun r' hr' => hall r' (List.mem_cons_of_mem r hr'))]

theorem pass1_count_one (src : List String) (f : String)
    (hne : f ≠ "") (hsrc : f ∈ src) :
    ∀ results : List CRec, (results.map CRec.archivo).Nodup →
      (∃ r ∈ results, r.archivo = f) →
      (((results.map (recCopy src)).flatten).filter
        (fun c => c.2 = f)).length = 1 := by
  intro results
  induction results with
  | nil => intro _ hex; simp at hex
  | cons r rest ih =>
    intro hnd hex
    simp only [List.map_cons, List.nodup_cons] at hnd
    simp only [List.map_cons, List.flatten_cons, List.filter_append,
      List.length_append]
    by_cases hr : r.archivo = f
    · have hhead : ((recCopy src r).filter (fun c => c.2 = f)).length = 1 := by
        have hlen := recCopy_length_one src r (hr ▸ hne) (hr ▸ hsrc)
        have hall : ∀ c ∈ recCopy src r, c.2 = f :=
          fun c hc => (recCopy_snd src r c hc).trans hr
        rw [List.filter_eq_self.mpr (fun c hc => by simp [hall c hc])]
        exact hlen
      have hrest : (((rest.map (recCopy src)).flatten).filter
          (fun c => c.2 = f)).length = 0 := by
        apply pass1_count_zero
        intro r' hr' hcon
        have hm : r'.archivo ∈ rest.map CRec.archivo :=
          List.mem_map_of_mem CRec.archivo hr'
        rw [hcon, ← hr] at hm
        exact hnd.1 hm
      omega
    · have hhead : ((recCopy src r).filter (fun c => c.2 = f)).length = 0 := by
        rw [List.length_eq_zero, List.filter_eq_nil_iff]
        intro c hc
        have := recCopy_snd src r c hc
        simp [this, hr]
      have hex' : ∃ r' ∈ rest, r'.archivo = f := by
        rcases hex with ⟨r', hr', harch⟩
        rcases List.mem_cons.mp hr' with h | h
        · exact absurd (h ▸ harch) hr
        · exact ⟨r', h, harch⟩
      rw [hhead, ih hnd.2 hex']

theorem pass2_count (f : String) :
    ∀ leftovers : List String,
      ((leftovers.map (fun g => (["no_clasificados"], g))).filter
        (fun c => c.2 = f)).length =
      (leftovers.filter (fun g => g = f)).length := by
  intro leftovers
  induction leftovers with
  | nil => simp
  | cons g rest ih =>
    by_cases hg : g = f <;> simp [hg, ih]

theorem filter_eq_length_one (f : String) :
    ∀ l : List String, l.Nodup → f ∈ l →
      (l.filter (fun g => g = f)).length = 1 := by
  intro l
  induction l with
  | nil => intro _ hf; simp at hf
  | cons g rest ih =>
    intro hnd hf
    rw [List.nodup_cons] at hnd
    by_cases hg : g = f
    · have : (rest.filter (fun g => g = f)).length = 0 := by
        rw [List.length_eq_zero, List.filter_eq_nil_iff]
        intro g' hg' hcon
        simp at hcon
        rw [hcon, ← hg] at hg'
        exact hnd.1 hg'
      simp [hg, this]
    · rcases List.mem_cons.mp hf with h | h
      · exact absurd h.symm hg
      · simp [hg, ih hnd.2 h]

theorem filter_eq_length_zero (f : String) (l : List String) (hf : ¬ f ∈ l) :
    (l.filter (fun g => g = f)).length = 0 := by
  rw [List.length_eq_zero, List.filter_eq_nil_iff]
  intro g hg hcon
  simp at hcon
  exact hf (hcon ▸ hg)

/-- C2 counterexample, two failure modes.  (1) Two classification
records naming the same source file with different themes make the
organizer copy that file twice, into two distinct destination
folders.  (2) A PDF named `B.PDF` — a PDF to the classifier's
case-insensitive suffix test — with no classification record is
missed by the reconciliation pass's case-sensitive `*.pdf` glob and
is never copied at all. -/
theorem c2_duplicate_records_double_copy :
    (destPathsOf (organize_files_by_classification
      [⟨"a.pdf", "X", ""⟩, ⟨"a.pdf", "Y", ""⟩] ["a.pdf"]) "a.pdf" =
      [["X"], ["Y"]] ∧ (["X"] : List String) ≠ ["Y"]) ∧
    (isPdfName "B.PDF" = true ∧
      destPathsOf (organize_files_by_classification [] ["B.PDF"]) "B.PDF" =
        []) := by decide

/-- C2 (amended).  Every source file matching the reconciliation
pass's case-sensitive `*.pdf` pattern is copied at least once into
the destination tree (a themed folder or `no_clasificados`), and
exactly once when moreover the folder listing is duplicate-free and
no two records share a file name; but a source file outside that
case-sensitive pattern (such as a PDF with an uppercase suffix) that
no record names is never copied at all. -/
theorem organize_covers_each_pdf (results : List CRec) (src : List String) :
    (∀ f ∈ src, globPdf f = true →
      destPathsOf (organize_files_by_classification results src) f ≠ []) ∧
    (src.Nodup → (results.map CRec.archivo).Nodup → ∀ f ∈ src, globPdf f = true →
      ((organize_files_by_classification results src).copies.filter
        (fun c => c.2 = f)).length = 1) ∧
    (∀ f ∈ src, globPdf f = false → (∀ r ∈ results, r.archivo ≠ f) →
      destPathsOf (organize_files_by_classification results src) f = []) := by
  refine ⟨?_, ?_, ?_⟩
  · intro f hf hg
    have hne : f ≠ "" := by
      intro h
      rw [h] at hg
      exact absurd hg (by decide)
    rcases hany : results.any (fun r => r.archivo = f) with _ | _
    · -- file never classified: the reconciliation pass copies it
      have hlf : f ∈ src.filter (fun g =>
          globPdf g && ¬ results.any (fun r => r.archivo = g)) := by
        rw [List.mem_filter]
        exact ⟨hf, by simp [hg, hany]⟩
      have hmem : ((["no_clasificados"], f) :
          List String × String) ∈
          (organize_files_by_classification results src).copies := by
        simp only [organize_files_by_classification, List.mem_append]
        right
        exact List.mem_map_of_mem _ hlf
      simp only [destPathsOf, ne_eq, List.map_eq_nil_iff]
      intro hnil
      rw [List.filter_eq_nil_iff] at hnil
      exact hnil _ hmem (by simp)
    · -- some record names the file: its copy lands in pass one
      rcases List.any_eq_true.mp hany with ⟨r, hr, harch⟩
      simp only [decide_eq_true_eq] at harch
      have hnee := recOutcome_ne_err src r (harch ▸ hne) (harch ▸ hf)
      have hcopy : ∃ c ∈ recCopy src r, c.2 = f := by
        simp only [recCopy]
        rcases h : recOutcome src r with _ | _ | d
        · exact absurd h hnee
        · exact ⟨(["no_clasificados"], r.archivo), by simp, harch⟩
        · exact ⟨(d, r.archivo), by simp, harch⟩
      rcases hcopy with ⟨c, hc, hc2⟩
      have hmem : c ∈ (organize_files_by_classification results src).copies := by
        simp only [organize_files_by_classification, List.mem_append]
        left
        rw [List.mem_flatten]
        exact ⟨recCopy src r, List.mem_map_of_mem (recCopy src) hr, hc⟩
      simp only [destPathsOf, ne_eq, List.map_eq_nil_iff]
      intro hnil
      rw [List.filter_eq_nil_iff] at hnil
      exact hnil _ hmem (by simp [hc2])
  · intro hnds hndr f hf hg
    have hne : f ≠ "" := by
      intro h
      rw [h] at hg
      exact absurd hg (by decide)
    simp only [organize_files_by_classification, List.filter_append,
      List.length_append]
    rcases hany : results.any (fun r => r.archivo = f) with _ | _
    · have h1 : (((results.map (recCopy src)).flatten).filter
          (fun c => c.2 = f)).length = 0 := by
        apply pass1_count_zero
        intro r hr hcon
        have : results.any (fun r => r.archivo = f) = true :=
          List.any_eq_true.mpr ⟨r, hr, decide_eq_true hcon⟩
        rw [hany] at this
        exact Bool.noConfusion this
      have hlf : f ∈ src.filter (fun g =>
          globPdf g && ¬ results.any (fun r => r.archivo = g)) := by
        rw [List.mem_filter]
        exact ⟨hf, by simp [hg, hany]⟩
      have h2 := pass2_count f (src.filter (fun g =>
        globPdf g && ¬ results.any (fun r => r.archivo = g)))
      rw [filter_eq_length_one f _ (hnds.filter _) hlf] at h2
      omega
    · rcases List.any_eq_true.mp hany with ⟨r, hr, harch⟩
      simp only [decide_eq_true_eq] at harch
      have h1 := pass1_count_one src f hne hf results hndr ⟨r, hr, harch⟩
      have hnlf : ¬ f ∈ src.filter (fun g =>
          globPdf g && ¬ results.any (fun r => r.archivo = g)) := by
        rw [List.mem_filter]
        rintro ⟨-, hcond⟩
        rw [hany] at hcond
        simp at hcond
      have h2 := pass2_count f (src.filter (fun g =>
        globPdf g && ¬ results.any (fun r => r.archivo = g)))
      rw [filter_eq_length_zero f _ hnlf] at h2
      omega
  · intro f hf hglob hnone
    have h1 : (((results.map (recCopy src)).flatten).filter
        (fun c => c.2 = f)).length = 0 := pass1_count_zero src f results hnone
    have hnlf : ¬ f ∈ src.filter (fun g =>
        globPdf g && ¬ results.any (fun r => r.archivo = g)) := by
      rw [List.mem_filter]
      rintro ⟨-, hcond⟩
      rw [hglob] at hcond
      simp at hcond
    have h2 := pass2_count f (src.filter (fun g =>
      globPdf g && ¬ results.any (fun r => r.archivo = g)))
    rw [filter_eq_length_zero f _ hnlf] at h2
    have hlen : ((organize_files_by_classification results src).copies.filter
        (fun c => c.2 = f)).length = 0 := by
      simp only [organize_files_by_classification, List.filter_append,
        List.length_append]
      omega
    rw [List.length_eq_zero] at hlen
    simp only [destPathsOf, hlen, List.map_nil]

/-- Witness for C2 on a three-file folder with one classified record:
the classified file and the lowercase-suffix unclassified file are
each copied once, while the uppercase-suffix recordless PDF receives
no copy. -/
theorem organize_covers_witness :
    destPathsOf (organize_files_by_classification [⟨"a.pdf", "X", ""⟩]
      ["a.pdf", "b.pdf", "B.PDF"]) "b.pdf" ≠ [] ∧
    ((organize_files_by_classification [⟨"a.pdf", "X", ""⟩]
      ["a.pdf", "b.pdf", "B.PDF"]).copies.filter
        (fun c => c.2 = "a.pdf")).length = 1 ∧
    destPathsOf (organize_files_by_classification [⟨"a.pdf", "X", ""⟩]
      ["a.pdf", "b.pdf", "B.PDF"]) "B.PDF" = [] :=
  ⟨(organize_covers_each_pdf [⟨"a.pdf", "X", ""⟩] ["a.pdf", "b.pdf", "B.PDF"]).1
     "b.pdf" (by decide) (by decide),
   (organize_covers_each_pdf [⟨"a.pdf", "X", ""⟩] ["a.pdf", "b.pdf", "B.PDF"]).2.1
     (by decide) (by decide) "a.pdf" (by decide) (by decide),
   (organize_covers_each_pdf [⟨"a.pdf", "X", ""⟩] ["a.pdf", "b.pdf", "B.PDF"]).2.2
     "B.PDF" (by decide) (by decide) (by decide)⟩

/-! ## Lemmas about `stripL` and the fence pipeline -/

theorem dropWhile_eq_self_of_head (p : Char → Bool) (l : List Char)
    (h : ∀ c, l.head? = some c → p c = false) : l.dropWhile p = l := by
  cases l with
  | nil => rfl
  | cons c cs =>
    rw [List.dropWhile_cons, h c rfl]
    simp

theorem head?_dropWhile_false (p : Char → Bool) (l : List Char) (c : Char)
    (h : (l.dropWhile p).head? = some c) : p c = false := by
  have := List.head?_dropWhile_not p l
  rw [h] at this
  exact this

theorem getLast?_dropWhile (p : Char → Bool) (l : List Char)
    (h : l.dropWhile p ≠ []) :
    (l.dropWhile p).getLast? = l.getLast? := by
  rcases List.dropWhile_suffix (l := l) p with ⟨t, ht⟩
  conv_rhs => rw [← ht]
  rw [List.getLast?_append_of_ne_nil t h]

theorem stripL_head_false (l : List Char) (c : Char)
    (h : (stripL l).head? = some c) : ws c = false := by
  simp only [stripL, List.head?_reverse] at h
  have hne : (l.dropWhile ws).reverse.dropWhile ws ≠ [] := by
    intro hnil
    rw [hnil] at h
    exact Option.noConfusion h
  rw [getLast?_dropWhile ws _ hne, List.getLast?_reverse] at h
  exact head?_dropWhile_false ws l c h

theorem stripL_getLast_false (l : List Char) (c : Char)
    (h : (stripL l).getLast? = some c) : ws c = false := by
  simp only [stripL, List.getLast?_reverse] at h
  exact head?_dropWhile_false ws _ c h

theorem stripL_idem (l : List Char) : stripL (stripL l) = stripL l := by
  have h1 : (stripL l).dropWhile ws = stripL l :=
    dropWhile_eq_self_of_head ws _ (fun c hc => stripL_head_false l c hc)
  have h2 : (stripL l).reverse.dropWhile ws = (stripL l).reverse := by
    apply dropWhile_eq_self_of_head
    intro c hc
    rw [List.head?_reverse] at hc
    exact stripL_getLast_false l c hc
  calc stripL (stripL l)
      = (((stripL l).dropWhile ws).reverse.dropWhile ws).reverse := rfl
    _ = stripL l := by rw [h1, h2, List.reverse_reverse]

theorem dropWhile_append_all (p : Char → Bool) (a b : List Char)
    (ha : ∀ c ∈ a, p c = true) (hb : b.dropWhile p = b) :
    (a ++ b).dropWhile p = b := by
  induction a with
  | nil => simpa using hb
  | cons c cs ih =>
    rw [List.cons_append, List.dropWhile_cons, ha c (List.mem_cons_self c cs)]
    exact ih (fun c hc => ha c (List.mem_cons_of_mem _ hc))

theorem stripL_wrap (wsl wsr mid : List Char)
    (h1 : ∀ c ∈ wsl, ws c = true) (h2 : ∀ c ∈ wsr, ws c = true)
    (hh : ∀ c, mid.head? = some c → ws c = false)
    (hg : ∀ c, mid.getLast? = some c → ws c = false)
    (hne : mid ≠ []) :
    stripL (wsl ++ mid ++ wsr) = mid := by
  have hmid : (mid ++ wsr).dropWhile ws = mid ++ wsr := by
    apply dropWhile_eq_self_of_head
    intro c hc
    rcases mid with _ | ⟨m, ms⟩
    · exact absurd rfl hne
    · rw [List.cons_append, List.head?_cons] at hc
      cases hc
      exact hh _ rfl
  have hL : ((wsl ++ mid ++ wsr).dropWhile ws) = mid ++ wsr := by
    rw [List.append_assoc]
    exact dropWhile_append_all ws wsl (mid ++ wsr) h1 hmid
  have hmidr : mid.reverse.dropWhile ws = mid.reverse := by
    apply dropWhile_eq_self_of_head
    intro c hc
    rw [List.head?_reverse] at hc
    exact hg c hc
  have hR : ((mid ++ wsr).reverse).dropWhile ws = mid.reverse := by
    rw [List.reverse_append]
    exact dropWhile_append_all ws wsr.reverse mid.reverse
      (fun c hc => h2 c (List.mem_reverse.mp hc)) hmidr
  calc stripL (wsl ++ mid ++ wsr)
      = (((wsl ++ mid ++ wsr).dropWhile ws).reverse.dropWhile ws).reverse := rfl
    _ = mid := by rw [hL, hR, List.reverse_reverse]

theorem dropRight3_eq_take (l : List Char) :
    dropRight3 l = l.take (l.length - 3) := by
  simp only [dropRight3]
  rw [List.reverse_drop]
  simp

theorem stripPipeline_wrap (t wsl wsr : List Char)
    (h1 : ∀ c ∈ wsl, ws c = true) (h2 : ∀ c ∈ wsr, ws c = true) :
    stripPipeline (wsl ++ (fenceJson ++ (t ++ (fence3 ++ wsr)))) = stripL t := by
  have harr : wsl ++ (fenceJson ++ (t ++ (fence3 ++ wsr))) =
      wsl ++ (fenceJson ++ t ++ fence3) ++ wsr := by
    simp [List.append_assoc]
  have hfj : fenceJson = btick :: "``json".toList := by decide
  have hhead : ∀ c, (fenceJson ++ t ++ fence3).head? = some c → ws c = false := by
    intro c hc
    rw [List.append_assoc, hfj, List.cons_append, List.head?_cons] at hc
    cases hc
    decide
  have hlast : ∀ c, (fenceJson ++ t ++ fence3).getLast? = some c → ws c = false := by
    intro c hc
    rw [List.append_assoc,
      List.getLast?_append_of_ne_nil _ (by simp [fence3, List.append_ne_nil_of_right_ne_nil]),
      List.getLast?_append_of_ne_nil _ (by decide)] at hc
    rw [show fence3.getLast? = some btick from by decide] at hc
    cases hc
    decide
  have hstrip : stripL (wsl ++ (fenceJson ++ (t ++ (fence3 ++ wsr)))) =
      fenceJson ++ t ++ fence3 := by
    rw [harr]
    exact stripL_wrap wsl wsr _ h1 h2 hhead hlast (by simp [fenceJson])
  have htake : (fenceJson ++ t ++ fence3).take 7 = fenceJson := by
    rw [List.append_assoc]
    exact List.take_left' (by decide)
  have hdrop : (fenceJson ++ t ++ fence3).drop 7 = t ++ fence3 := by
    rw [List.append_assoc]
    exact List.drop_left' (by decide)
  have hends : endsFence (t ++ fence3) = true := by
    simp only [endsFence, List.reverse_append]
    rw [List.take_left' (by decide)]
    simp
    decide
  have hdr : dropRight3 (t ++ fence3) = t := by
    simp only [dropRight3, List.reverse_append]
    rw [List.drop_left' (by decide), List.reverse_reverse]
  simp only [stripPipeline, hstrip]
  rw [if_pos htake, hdrop, if_pos hends, hdr]

theorem stripPipeline_plain (t : List Char)
    (h7 : ¬ (stripL t).take 7 = fenceJson) (hf : endsFence (stripL t) = false) :
    stripPipeline t = stripL t := by
  simp only [stripPipeline, if_neg h7, hf]
  rw [if_neg (by simp [hf])]
  exact stripL_idem t

/-- C6 counterexample: for the response text `[1]\x60\x60\x60` the
fenced wrapping does NOT decode identically — the unwrapped text
decodes to a one-element array while the wrapped text fails, because
the inner text's own trailing fence marker is consumed differently. -/
theorem c6_fence_wrap_not_identity :
    decodeResp "```json[1]``````" ≠ decodeResp "[1]```" := by
  rw [show decodeResp "```json[1]``````" = none from rfl,
    show decodeResp "[1]```" = some [Json.num 1] from rfl]
  exact fun h => Option.noConfusion h

/-- C6 (amended).  For every response text `t` whose stripped form
neither starts with the `\x60\x60\x60json` fence prefix nor ends with
a `\x60\x60\x60` fence, wrapping `t` in a leading language-tagged
fence and a trailing fence (with arbitrary surrounding whitespace)
decodes to exactly the same parsed classification array as `t`
unwrapped. -/
theorem decode_fence_tolerant (t wsl wsr : List Char)
    (h1 : ∀ c ∈ wsl, ws c = true) (h2 : ∀ c ∈ wsr, ws c = true)
    (h7 : ¬ (stripL t).take 7 = fenceJson)
    (hf : endsFence (stripL t) = false) :
    decodeL (wsl ++ (fenceJson ++ (t ++ (fence3 ++ wsr)))) = decodeL t := by
  simp only [decodeL]
  rw [stripPipeline_wrap t wsl wsr h1 h2, stripPipeline_plain t h7 hf]

/-- Witness for C6: wrapping `[1]` in whitespace-padded fences
decodes to the same array. -/
theorem decode_fence_tolerant_witness :
    decodeL ([' '] ++ (fenceJson ++ ("[1]".toList ++ (fence3 ++ [' '])))) =
      decodeL "[1]".toList :=
  decode_fence_tolerant "[1]".toList [' '] [' ']
    (by decide) (by decide) (by decide) (by decide)

/-! ## Failure behaviour of the decoder -/

theorem decodeL_of_not_array (resp : List Char)
    (h : parseJson (stripPipeline resp) = none ∨
      ∃ v, parseJson (stripPipeline resp) = some v ∧ ∀ xs, v ≠ Json.arr xs) :
    decodeL resp = none := by
  simp only [decodeL]
  rcases h with h | ⟨v, hv, hna⟩
  · rw [h]
  · rw [hv]
    cases v with
    | arr xs => exact absurd rfl (hna xs)
    | null => rfl
    | bool b => rfl
    | num n => rfl
    | str s => rfl
    | obj fs => rfl

/-- C7.  Whenever the fence-stripped response text is not valid JSON
(including the empty string) or parses to a JSON value that is not an
array, `classify_batch_with_ai` returns the failure value — no
exception reaches the caller, modelled by the function being total —
and the raw response text is retained in the diagnostic log
entries. -/
theorem classify_batch_malformed_fails_cleanly
    (texts : List (String × String)) (resp : String) (hne : texts ≠ [])
    (h : parseJson (stripPipeline resp.toList) = none ∨
      ∃ v, parseJson (stripPipeline resp.toList) = some v ∧
        ∀ xs, v ≠ Json.arr xs) :
    (classify_batch_with_ai texts resp).1 = none ∧
    resp ∈ (classify_batch_with_ai texts resp).2 := by
  have hdec : decodeResp resp = none := decodeL_of_not_array resp.toList h
  simp only [classify_batch_with_ai, if_neg hne, hdec]
  simp

/-- Witness for C7 at a batch of one file answered with non-JSON
text. -/
theorem classify_batch_malformed_witness :
    (classify_batch_with_ai [("t", "f.pdf")] "not json").1 = none ∧
    "not json" ∈ (classify_batch_with_ai [("t", "f.pdf")] "not json").2 :=
  classify_batch_malformed_fails_cleanly [("t", "f.pdf")] "not json"
    (by simp) (Or.inl rfl)

/-! ## Bare-fence responses (C10) -/

theorem skipWs_btick (ys : List Char) : skipWs (btick :: ys) = btick :: ys := by
  simp only [skipWs, List.dropWhile_cons]
  rw [show ws btick = false from by decide]
  simp

theorem parseJson_btick (ys : List Char) : parseJson (btick :: ys) = none := by
  have hv : parseV ((btick :: ys).length + 1) (btick :: ys) = none := by
    show parseStep (parseV ((btick :: ys).length)) (btick :: ys) = none
    simp only [parseStep, skipWs_btick]
    rw [if_neg (show ¬ btick = 'n' from by decide),
      if_neg (show ¬ btick = 't' from by decide),
      if_neg (show ¬ btick = 'f' from by decide),
      if_neg (show ¬ btick = '"' from by decide),
      if_neg (show ¬ btick = '-' from by decide),
      if_neg (show ¬ btick.isDigit = true from by decide),
      if_neg (show ¬ btick = '[' from by decide),
      if_neg (show ¬ btick = '{' from by decide)]
  simp only [parseJson, hv]

theorem stripL_cons_head (c : Char) (xs : List Char) (hc : ws c = false) :
    ∃ ys, stripL (c :: xs) = c :: ys := by
  have h1 : (c :: xs).dropWhile ws = c :: xs := by
    rw [List.dropWhile_cons, hc]
    simp
  have hq : (c :: xs).reverse.dropWhile ws ≠ [] := by
    intro hnil
    rw [List.dropWhile_eq_nil_iff] at hnil
    have := hnil c (List.mem_reverse.mpr (List.mem_cons_self c xs))
    rw [hc] at this
    exact Bool.noConfusion this
  have hlast : ((c :: xs).reverse.dropWhile ws).getLast? = some c := by
    rw [getLast?_dropWhile ws _ hq, List.getLast?_reverse]
    rfl
  have hhead : (stripL (c :: xs)).head? = some c := by
    simp only [stripL, h1, List.head?_reverse]
    exact hlast
  rcases hs : stripL (c :: xs) with _ | ⟨a, as⟩
  · rw [hs] at hhead
    exact Option.noConfusion hhead
  · rw [hs] at hhead
    simp only [List.head?_cons, Option.some.injEq] at hhead
    exact ⟨as, by rw [hhead]⟩

/-- C10.  When the stripped response begins with a bare
`\x60\x60\x60` fence not followed by the `json` tag, the pipeline
does not remove that leading fence: the final stripped text is empty
or still starts with the backquote, JSON parsing fails, the decode is
the failure value, and a batch answered with such a response
contributes zero records. -/
theorem bare_fence_not_stripped (resp : List Char)
    (h3 : (stripL resp).take 3 = fence3)
    (h7 : ¬ (stripL resp).take 7 = fenceJson) :
    (stripPipeline resp = [] ∨ (stripPipeline resp).head? = some btick) ∧
    decodeL resp = none ∧
    (∀ (extract : String → Option String) (ts : String) (batch : List String),
      (process_batch extract (fun _ => String.mk resp) ts batch).1 =
        Except.ok []) := by
  have hcons : ∃ rest, stripL resp = btick :: btick :: btick :: rest := by
    have h3' := h3
    rw [show fence3 = [btick, btick, btick] from by decide] at h3'
    rcases hsl : stripL resp with _ | ⟨c1, m1⟩
    · rw [hsl] at h3'
      simp at h3'
    rcases m1 with _ | ⟨c2, m2⟩
    · rw [hsl] at h3'
      simp at h3'
    rcases m2 with _ | ⟨c3, rest⟩
    · rw [hsl] at h3'
      simp at h3'
    · rw [hsl] at h3'
      simp only [List.take_succ_cons, List.take_zero, List.cons.injEq,
        and_true] at h3'
      exact ⟨rest, by rw [h3'.1, h3'.2.1, h3'.2.2]⟩
  have hgen : stripPipeline resp = [] ∨ (stripPipeline resp).head? = some btick := by
    obtain ⟨rest, hr⟩ := hcons
    simp only [stripPipeline, if_neg h7]
    by_cases he : endsFence (stripL resp) = true
    · rw [if_pos he, dropRight3_eq_take, hr]
      have hlen : (btick :: btick :: btick :: rest).length - 3 = rest.length := by
        simp
      rw [hlen]
      cases hrl : rest.length with
      | zero =>
        left
        simp [List.take_zero]
        rfl
      | succ k =>
        right
        rw [List.take_succ_cons]
        obtain ⟨ys, hys⟩ :=
          stripL_cons_head btick (List.take k (btick :: btick :: rest))
            (by decide)
        rw [hys]
        rfl
    · rw [if_neg he, stripL_idem, hr]
      right
      rfl
  have hparse : parseJson (stripPipeline resp) = none := by
    rcases hgen with h | h
    · rw [h]
      rfl
    · rcases hsp : stripPipeline resp with _ | ⟨c, ys⟩
      · rfl
      · rw [hsp] at h
        simp only [List.head?_cons, Option.some.injEq] at h
        rw [h]
        exact parseJson_btick ys
  have hdecL : decodeL resp = none := by
    simp only [decodeL, hparse]
  refine ⟨hgen, hdecL, ?_⟩
  intro extract ts batch
  simp only [process_batch]
  by_cases htaf : effectiveBatch extract batch = []
  · rw [if_pos htaf]
  · rw [if_neg htaf]
    have hcl : (classify_batch_with_ai (effectiveBatch extract batch)
        (String.mk resp)).1 = none := by
      have hdr : decodeResp (String.mk resp) = none := hdecL
      simp only [classify_batch_with_ai, if_neg htaf, hdr]
    rw [hcl]

/-- Witness for C10 at the concrete bare-fenced response
`\x60\x60\x60 [1] \x60\x60\x60`. -/
theorem bare_fence_witness : decodeL "``` [1] ```".toList = none :=
  (bare_fence_not_stripped "``` [1] ```".toList (by decide) (by decide)).2.1

/-! ## Sanitization theorems -/

/-- C8 counterexample: sanitizing
`"Ciencias de la Computación!!"` does NOT yield a segment matching
`[A-Za-z_]\x7b1,50\x7d` — the sanitizer strips only the nine
characters illegal in folder names, so the accented `ó` and the two
`!` survive. -/
theorem c8_pattern_mismatch :
    matchesFolderPattern
      (sanitize_folder_name "Ciencias de la Computación!!") = false := by
  decide

/-- C8 (amended).  Sanitizing `"Ciencias de la Computación!!"`
yields `"Ciencias_De_La_Computación!!"`: at most 50 characters, free
of filesystem-illegal characters and whitespace, title-cased word by
word — but not matching the ASCII-only pattern `[A-Za-z_]\x7b1,50\x7d`,
since `ó` and `!` remain. -/
theorem c8_sanitize_computacion :
    sanitize_folder_name "Ciencias de la Computación!!" =
      "Ciencias_De_La_Computación!!" ∧
    (∀ c ∈ (sanitize_folder_name "Ciencias de la Computación!!").toList,
      ¬ c ∈ illegalChars ∧ c.isWhitespace = false) ∧
    (sanitize_folder_name "Ciencias de la Computación!!").length ≤ 50 ∧
    isTitleCased (sanitize_folder_name "Ciencias de la Computación!!") = true ∧
    matchesFolderPattern
      (sanitize_folder_name "Ciencias de la Computación!!") = false := by
  decide

/-! ## Lemmas for the sanitizer invariants -/

theorem joinU_splitUnd : ∀ l : List Char, joinU (splitUnd l) = l := by
  intro l
  induction l with
  | nil => rfl
  | cons c cs ih =>
    simp only [splitUnd]
    rcases hs : splitUnd cs with _ | ⟨w, ws'⟩
    · rw [hs] at ih
      simp only [joinU] at ih
      rw [← ih] at hs
      simp [splitUnd] at hs
    · rw [hs] at ih
      show joinU (if c = '_' then [] :: w :: ws' else (c :: w) :: ws') = c :: cs
      by_cases hc : c = '_'
      · rw [if_pos hc]
        simp only [joinU, List.nil_append]
        rw [ih, hc]
      · rw [if_neg hc]
        cases ws' with
        | nil =>
          simp only [joinU] at ih ⊢
          rw [ih]
        | cons w2 ws2 =>
          simp only [joinU, List.cons_append] at ih ⊢
          rw [ih]

theorem joinU_tail_le (w : List Char) (rest : List (List Char)) :
    (joinU rest).length ≤ (joinU (w :: rest)).length := by
  cases rest with
  | nil => simp [joinU]
  | cons w2 rest2 =>
    simp only [joinU, List.length_append, List.length_cons]
    omega

theorem joinU_head_le (w : List Char) (rest : List (List Char)) :
    w.length ≤ (joinU (w :: rest)).length := by
  cases rest with
  | nil => simp [joinU]
  | cons w2 rest2 => simp [joinU]

theorem joinU_filter_length_le (p : List Char → Bool) :
    ∀ L : List (List Char),
      (joinU (L.filter p)).length ≤ (joinU L).length := by
  intro L
  induction L with
  | nil => simp
  | cons w rest ih =>
    rw [List.filter_cons]
    by_cases hp : p w = true
    · rw [if_pos hp]
      rcases hf : rest.filter p with _ | ⟨w2, rest2⟩
      · rw [hf] at ih
        simp only [joinU]
        exact joinU_head_le w rest
      · rw [hf] at ih
        rcases rest with _ | ⟨w3, rest3⟩
        · simp at hf
        · simp only [joinU, List.length_append, List.length_cons] at ih ⊢
          omega
    · rw [if_neg hp]
      exact Nat.le_trans ih (joinU_tail_le w rest)

theorem mem_joinU (c : Char) :
    ∀ L : List (List Char), c ∈ joinU L → c = '_' ∨ ∃ w ∈ L, c ∈ w := by
  intro L
  induction L with
  | nil => intro h; simp [joinU] at h
  | cons w rest ih =>
    intro h
    cases rest with
    | nil =>
      simp only [joinU] at h
      exact Or.inr ⟨w, List.mem_cons_self w [], h⟩
    | cons w2 rest2 =>
      simp only [joinU, List.mem_append, List.mem_cons] at h
      rcases h with h | h | h
      · exact Or.inr ⟨w, List.mem_cons_self _ _, h⟩
      · exact Or.inl h
      · rcases ih h with h' | ⟨w', hw', hc⟩
        · exact Or.inl h'
        · exact Or.inr ⟨w', List.mem_cons_of_mem w hw', hc⟩

theorem mem_of_mem_splitUnd (c : Char) :
    ∀ (l : List Char) (w : List Char), w ∈ splitUnd l → c ∈ w → c ∈ l := by
  intro l
  induction l with
  | nil =>
    intro w hw hc
    simp only [splitUnd, List.mem_singleton] at hw
    rw [hw] at hc
    simp at hc
  | cons d ds ih =>
    intro w hw hc
    simp only [splitUnd] at hw
    rcases hs : splitUnd ds with _ | ⟨w1, ws1⟩
    · rw [hs] at hw
      replace hw : w ∈ [[d]] := hw
      simp only [List.mem_singleton] at hw
      rw [hw] at hc
      simp only [List.mem_singleton] at hc
      rw [hc]
      exact List.mem_cons_self d ds
    · rw [hs] at hw
      replace hw : w ∈ (if d = '_' then [] :: w1 :: ws1
          else (d :: w1) :: ws1) := hw
      by_cases hd : d = '_'
      · rw [if_pos hd] at hw
        rcases List.mem_cons.mp hw with h | h
        · rw [h] at hc
          simp at hc
        · exact List.mem_cons_of_mem d (ih w (by rw [hs]; exact h) hc)
      · rw [if_neg hd] at hw
        rcases List.mem_cons.mp hw with h | h
        · rw [h] at hc
          rcases List.mem_cons.mp hc with h' | h'
          · rw [h']
            exact List.mem_cons_self d ds
          · exact List.mem_cons_of_mem d
              (ih w1 (by rw [hs]; exact List.mem_cons_self w1 ws1) h')
        · exact List.mem_cons_of_mem d
            (ih w (by rw [hs]; exact List.mem_cons_of_mem w1 h) hc)

theorem mem_capWord (c : Char) (w : List Char) (h : c ∈ capWord w) :
    ∃ d ∈ w, c ∈ titleCharL d ∨ c ∈ lowCharL d := by
  cases w with
  | nil => simp [capWord] at h
  | cons d ds =>
    simp only [capWord, List.mem_append] at h
    rcases h with h | h
    · exact ⟨d, List.mem_cons_self d ds, Or.inl h⟩
    · rcases List.mem_flatMap.mp h with ⟨d', hd', hc⟩
      exact ⟨d', List.mem_cons_of_mem d hd', Or.inr hc⟩

theorem mem_collapseAux (c : Char) :
    ∀ (l : List Char) (b : Bool), c ∈ collapseAux b l →
      c = '_' ∨ (c ∈ l ∧ ws c = false) := by
  intro l
  induction l with
  | nil => intro b h; simp [collapseAux] at h
  | cons d ds ih =>
    intro b h
    simp only [collapseAux] at h
    by_cases hd : ws d = true
    · rw [if_pos hd] at h
      cases b with
      | true =>
        simp only [if_pos rfl] at h
        rcases ih true h with h' | ⟨hm, hw⟩
        · exact Or.inl h'
        · exact Or.inr ⟨List.mem_cons_of_mem d hm, hw⟩
      | false =>
        simp only [Bool.false_eq_true, if_false] at h
        rcases List.mem_cons.mp h with h' | h'
        · exact Or.inl h'
        · rcases ih true h' with h'' | ⟨hm, hw⟩
          · exact Or.inl h''
          · exact Or.inr ⟨List.mem_cons_of_mem d hm, hw⟩
    · rw [if_neg hd] at h
      rcases List.mem_cons.mp h with h' | h'
      · exact Or.inr ⟨by rw [h']; exact List.mem_cons_self d ds,
          by rw [h']; exact Bool.eq_false_iff.mpr hd⟩
      · rcases ih false h' with h'' | ⟨hm, hw⟩
        · exact Or.inl h''
        · exact Or.inr ⟨List.mem_cons_of_mem d hm, hw⟩

theorem stripL_subset (l : List Char) : stripL l ⊆ l := by
  intro c hc
  simp only [stripL, List.mem_reverse] at hc
  have h1 := (List.dropWhile_suffix ws).subset hc
  rw [List.mem_reverse] at h1
  exact (List.dropWhile_suffix ws).subset h1

theorem goodChar_upChar (c : Char)
    (h : ¬ c ∈ illegalChars ∧ c.isWhitespace = false) :
    ¬ upChar c ∈ illegalChars ∧ (upChar c).isWhitespace = false := by
  simp only [upChar]
  rcases hf : caseTable.find? (fun p => p.1 = c) with _ | p
  · rw [hf]
    simpa using h
  · rw [hf]
    have hmem := List.mem_of_find?_eq_some hf
    have hall : ∀ q ∈ caseTable,
        ¬ q.2 ∈ illegalChars ∧ (q.2).isWhitespace = false := by decide
    simpa using hall p hmem

theorem goodChar_lowChar (c : Char)
    (h : ¬ c ∈ illegalChars ∧ c.isWhitespace = false) :
    ¬ lowChar c ∈ illegalChars ∧ (lowChar c).isWhitespace = false := by
  simp only [lowChar]
  rcases hf : caseTable.find? (fun p => p.2 = c) with _ | p
  · rw [hf]
    simpa using h
  · rw [hf]
    have hmem := List.mem_of_find?_eq_some hf
    have hall : ∀ q ∈ caseTable,
        ¬ q.1 ∈ illegalChars ∧ (q.1).isWhitespace = false := by decide
    simpa using hall p hmem

theorem goodChar_titleCharL (c : Char)
    (h : ¬ c ∈ illegalChars ∧ c.isWhitespace = false) :
    ∀ e ∈ titleCharL c, ¬ e ∈ illegalChars ∧ e.isWhitespace = false := by
  intro e he
  simp only [titleCharL] at he
  by_cases hc : c = 'ß'
  · rw [if_pos hc] at he
    rcases List.mem_cons.mp he with h' | h'
    · rw [h']
      decide
    · simp only [List.mem_singleton] at h'
      rw [h']
      decide
  · rw [if_neg hc] at he
    simp only [List.mem_singleton] at he
    rw [he]
    exact goodChar_upChar c h

theorem goodChar_lowCharL (c : Char)
    (h : ¬ c ∈ illegalChars ∧ c.isWhitespace = false) :
    ∀ e ∈ lowCharL c, ¬ e ∈ illegalChars ∧ e.isWhitespace = false := by
  intro e he
  simp only [lowCharL] at he
  by_cases hc : c = 'İ'
  · rw [if_pos hc] at he
    rcases List.mem_cons.mp he with h' | h'
    · rw [h']
      decide
    · simp only [List.mem_singleton] at h'
      rw [h']
      decide
  · rw [if_neg hc] at he
    simp only [List.mem_singleton] at he
    rw [he]
    exact goodChar_lowChar c h

theorem sanitizeCore_chars (s : String) :
    ∀ c ∈ sanitizeCore s, ¬ c ∈ illegalChars ∧ c.isWhitespace = false := by
  intro c hc
  simp only [sanitizeCore] at hc
  rcases mem_joinU c _ hc with h | ⟨w, hw, hcw⟩
  · rw [h]
    decide
  · rcases List.mem_map.mp hw with ⟨w', hw', hww⟩
    rcases mem_capWord c w' (hww ▸ hcw) with ⟨d, hd, hud⟩
    have hgood : ¬ d ∈ illegalChars ∧ d.isWhitespace = false := by
      have hd3 : d ∈ (collapseWs (stripL (s.toList.filter
          (fun c => ¬ c ∈ illegalChars)))).take 50 :=
        mem_of_mem_splitUnd d _ w' (List.mem_of_mem_filter hw') hd
      have hd2 : d ∈ collapseWs (stripL (s.toList.filter
          (fun c => ¬ c ∈ illegalChars))) := List.take_subset 50 _ hd3
      rcases mem_collapseAux d _ false hd2 with h' | ⟨hm, hwd⟩
      · rw [h']
        decide
      · have hd1 : d ∈ s.toList.filter (fun c => ¬ c ∈ illegalChars) :=
          stripL_subset _ hm
        have := List.of_mem_filter hd1
        simp only [decide_eq_true_eq] at this
        exact ⟨this, hwd⟩
    rcases hud with h' | h'
    · exact goodChar_titleCharL d hgood c h'
    · exact goodChar_lowCharL d hgood c h'

/-- C9 counterexample: the 50-character truncation happens before
word-capitalization, whose lowercasing can expand characters, so
`_sanitize_folder_name` applied to 49 `a`s followed by U+0130
returns a 51-character string — the universal 50-character cap is
false of the program. -/
theorem c9_truncation_overflow :
    (sanitize_folder_name c9cex).length = 51 ∧
    ¬ (sanitize_folder_name c9cex).length ≤ 50 := by decide

/-- C9 (amended).  For every input, `_sanitize_folder_name` returns a
non-empty string containing no filesystem-illegal character and no
whitespace; empty and placeholder inputs (`"n/a"`, `"na"`, `"none"`,
`"null"`, case-insensitively) map to `"Sin_Clasificar"`.  The
50-character cap is NOT an invariant of the result: the cleaned name
is truncated to 50 characters before capitalization, which can
expand characters. -/
theorem sanitize_folder_name_invariants (s : String) :
    sanitize_folder_name s ≠ "" ∧
    (∀ c ∈ (sanitize_folder_name s).toList,
      ¬ c ∈ illegalChars ∧ c.isWhitespace = false) ∧
    ((s = "" ∨ asciiLower s ∈ sanitizePlaceholders) →
      sanitize_folder_name s = "Sin_Clasificar") := by
  by_cases hpl : s = "" ∨ asciiLower s ∈ sanitizePlaceholders
  · refine ⟨?_, ?_, fun _ => ?_⟩ <;>
      simp only [sanitize_folder_name, if_pos hpl] <;> decide
  · by_cases hj : sanitizeCore s = []
    · refine ⟨?_, ?_, fun h => absurd h hpl⟩ <;>
        simp only [sanitize_folder_name, if_neg hpl, if_pos hj] <;> decide
    · have hout : sanitize_folder_name s = String.mk (sanitizeCore s) := by
        simp only [sanitize_folder_name, if_neg hpl, if_neg hj]
      refine ⟨?_, ?_, fun h => absurd h hpl⟩
      · rw [hout]
        intro hcon
        exact hj (congrArg String.toList hcon)
      · rw [hout]
        exact sanitizeCore_chars s

/-- Witness for C9 at a placeholder input and an ordinary input. -/
theorem sanitize_invariants_witness :
    sanitize_folder_name "N/A" = "Sin_Clasificar" ∧
    sanitize_folder_name "hello world!" ≠ "" :=
  ⟨(sanitize_folder_name_invariants "N/A").2.2 (Or.inr (by decide)),
   (sanitize_folder_name_invariants "hello world!").1⟩
